import Mathlib

/-!
# Verification of the Lambda packaging build tool

Shallow embedding of the build/packaging core of the repository
(`builder/components/lambda_builder.py`, `layer_builder.py`,
`appsync_builder.py`) together with proofs of the testable properties
stated in the specification.

Conventions used throughout:
* Python `pathlib.Path` values are modelled either as elements of an
  abstract vertex type `V` (for the dependency-tree walker, which only
  compares paths for equality) or as lists of path components
  (`List String`) where the component structure matters.
* Mutable `set` parameters threaded through the Python recursion are
  modelled by explicit state passing.
* Python recursion is modelled with an explicit fuel parameter; the
  theorems show that `Fintype.card V + 1` fuel (resp. number of schema
  files + 1) is always sufficient, which is the termination argument.
* Exceptions are modelled by `Option` results (`none` = the exception
  propagates to the caller) or, for coarse-grained build drivers, by
  boolean fault oracles saying which build step raises.
-/

namespace Builder

/-! ## Dependency tree walker (`lambda_builder.py`, lines 65-131)

`LambdaBuilder._resolve_dependencies_recursive` walks the import graph of
a handler file, threading two mutable sets `visited` and `dependencies`.
The file system, the AST import extraction and the import resolvers are
abstracted into an `ImportEnv`:

* `fexists p`      models `p.exists()`;
* `suffixPy p`     models `p.suffix == '.py'`;
* `parseImports p` models `ast.parse(p.read_text())` followed by the
  `ast.walk` loop collecting the module names handed to
  `_resolve_import`; `none` models an exception raised while reading or
  parsing (caught by the `except` of lines 101-102);
* `isStdlib m`     models `_is_standard_library(m)`;
* `resolve m p`    models the relative/absolute resolution performed by
  `_resolve_relative_import` / `_resolve_absolute_import` (`none` =
  unresolved).
-/

structure ImportEnv (V M : Type) where
  fexists : V → Bool
  suffixPy : V → Bool
  parseImports : V → Option (List M)
  isStdlib : M → Bool
  resolve : M → V → Option V

/-- The state threaded through `_resolve_dependencies_recursive`:
the `visited` set and the `dependencies` result set of
`_analyze_dependency_tree`.  The `trace` field is ghost instrumentation
(not present in the source): it records, in order, every file the walker
starts processing (i.e. every execution of `visited.add(file_path)`,
line 83); it is used only to state that each file is visited at most
once. -/
structure WalkState (V : Type) [DecidableEq V] where
  visited : Finset V
  deps : Finset V
  trace : List V

variable {V M : Type} [DecidableEq V]

/-- The initial walker state of `_analyze_dependency_tree` (lines
67-68): fresh empty `visited` and `dependencies` sets (and empty ghost
trace). -/
def initState : WalkState V := ⟨∅, ∅, []⟩

/-- `LambdaBuilder._resolve_dependencies_recursive` (lines 78-102),
together with the inlined body of `_resolve_import` (lines 104-119) for
each module name produced by the `ast.walk` loop of lines 93-99.  The
fuel argument bounds the depth of nested file visits; one unit is
consumed per visited file, and `Fintype.card V + 1` is proven sufficient
below. -/
def resolveDependenciesRecursive (env : ImportEnv V M) :
    Nat → V → WalkState V → WalkState V
  | 0, _, s => s
  | Nat.succ fuel, p, s =>
    if p ∈ s.visited then s
    else
      let s1 : WalkState V := ⟨insert p s.visited, s.deps, p :: s.trace⟩
      if env.fexists p && env.suffixPy p then
        match env.parseImports p with
        | none => s1
        | some ms =>
          ms.foldl (fun t m =>
            if env.isStdlib m then t
            else
              match env.resolve m p with
              | none => t
              | some q =>
                if env.fexists q then
                  resolveDependenciesRecursive env fuel q
                    ⟨t.visited, insert q t.deps, t.trace⟩
                else t) s1
      else s1

/-- `LambdaBuilder._resolve_import` (lines 104-119): skip standard
library modules, resolve the module name, and if the resolved path
exists add it to the dependency set and recurse into it.  Definitionally
equal to the step function inlined in `resolveDependenciesRecursive`. -/
def resolveImport (env : ImportEnv V M) (fuel : Nat) (m : M) (p : V)
    (s : WalkState V) : WalkState V :=
  if env.isStdlib m then s
  else
    match env.resolve m p with
    | none => s
    | some q =>
      if env.fexists q then
        resolveDependenciesRecursive env fuel q
          ⟨s.visited, insert q s.deps, s.trace⟩
      else s

/-- The `for node in ast.walk(tree)` loop of lines 93-99: calls
`_resolve_import` once for every extracted module name. -/
def resolveImportList (env : ImportEnv V M) (fuel : Nat) (ms : List M)
    (p : V) (s : WalkState V) : WalkState V :=
  ms.foldl (fun t m => resolveImport env fuel m p t) s

theorem resolveDependenciesRecursive_zero (env : ImportEnv V M) (p : V)
    (s : WalkState V) : resolveDependenciesRecursive env 0 p s = s := rfl

theorem resolveDependenciesRecursive_succ (env : ImportEnv V M)
    (fuel : Nat) (p : V) (s : WalkState V) :
    resolveDependenciesRecursive env (fuel + 1) p s =
      (if p ∈ s.visited then s
      else
        let s1 : WalkState V := ⟨insert p s.visited, s.deps, p :: s.trace⟩
        if env.fexists p && env.suffixPy p then
          match env.parseImports p with
          | none => s1
          | some ms => resolveImportList env fuel ms p s1
        else s1) := rfl

theorem resolveImportList_nil (env : ImportEnv V M) (fuel : Nat) (p : V)
    (s : WalkState V) : resolveImportList env fuel [] p s = s := rfl

theorem resolveImportList_cons (env : ImportEnv V M) (fuel : Nat) (m : M)
    (ms : List M) (p : V) (s : WalkState V) :
    resolveImportList env fuel (m :: ms) p s =
      resolveImportList env fuel ms p (resolveImport env fuel m p s) := rfl

/-- The import relation of the analyzed project: `importEdge env p q`
holds iff processing file `p` makes the walker add `q` to the dependency
set, i.e. `p` is an existing `.py` file that parses, and some extracted
module name of `p` is not standard library and resolves to the existing
file `q`.  This is the spec's "import relation restricted to
first-party resolvable files". -/
def importEdge (env : ImportEnv V M) (p q : V) : Bool :=
  env.fexists p && env.suffixPy p &&
    (match env.parseImports p with
     | none => false
     | some ms =>
       ms.any fun m =>
         !env.isStdlib m &&
           (match env.resolve m p with
            | none => false
            | some r => decide (r = q) && env.fexists r))

/-- `LambdaBuilder._analyze_dependency_tree` (lines 65-76), successful
case: run the recursive walk from the handler file with fresh empty
`visited` and `dependencies` sets and return the dependency set.
`Fintype.card V + 1` fuel is proven sufficient below. -/
def analyzeDependencyTree [Fintype V] (env : ImportEnv V M) (entry : V) :
    Finset V :=
  (resolveDependenciesRecursive env (Fintype.card V + 1) entry
    initState).deps

/-! ### Monotonicity: the walker only ever grows its state -/

/-- Growth order on walker states: the visited set, the dependency set
and the set of traced files only grow. -/
def StateLE (s t : WalkState V) : Prop :=
  s.visited ⊆ t.visited ∧ s.deps ⊆ t.deps ∧ ∀ x ∈ s.trace, x ∈ t.trace

theorem stateLE_refl {s : WalkState V} : StateLE s s :=
  ⟨subset_rfl, subset_rfl, fun _ hx => hx⟩

theorem stateLE_trans {s t u : WalkState V} (h1 : StateLE s t)
    (h2 : StateLE t u) : StateLE s u :=
  ⟨h1.1.trans h2.1, h1.2.1.trans h2.2.1,
    fun x hx => h2.2.2 x (h1.2.2 x hx)⟩

theorem resolveImport_mono (env : ImportEnv V M) (fuel : Nat)
    (hrec : ∀ p s, StateLE s (resolveDependenciesRecursive env fuel p s))
    (m : M) (p : V) (s : WalkState V) :
    StateLE s (resolveImport env fuel m p s) := by
  unfold resolveImport
  split
  · exact stateLE_refl
  · split
    · exact stateLE_refl
    · split
      · refine stateLE_trans (t := ⟨s.visited, insert _ s.deps, s.trace⟩) ?_ (hrec _ _)
        exact ⟨subset_rfl, Finset.subset_insert _ _, fun _ hx => hx⟩
      · exact stateLE_refl

theorem resolveImportList_mono (env : ImportEnv V M) (fuel : Nat)
    (hrec : ∀ p s, StateLE s (resolveDependenciesRecursive env fuel p s)) :
    ∀ (ms : List M) (p : V) (s : WalkState V),
      StateLE s (resolveImportList env fuel ms p s) := by
  intro ms
  induction ms with
  | nil => intro p s; rw [resolveImportList_nil]; exact stateLE_refl
  | cons m ms ih =>
    intro p s
    rw [resolveImportList_cons]
    exact stateLE_trans (resolveImport_mono env fuel hrec m p s) (ih p _)

theorem resolveDependenciesRecursive_mono (env : ImportEnv V M) :
    ∀ (fuel : Nat) (p : V) (s : WalkState V),
      StateLE s (resolveDependenciesRecursive env fuel p s) := by
  intro fuel
  induction fuel with
  | zero => intro p s; rw [resolveDependenciesRecursive_zero]; exact stateLE_refl
  | succ fuel ih =>
    intro p s
    rw [resolveDependenciesRecursive_succ]
    split
    · exact stateLE_refl
    · have hs1 : StateLE s ⟨insert p s.visited, s.deps, p :: s.trace⟩ :=
        ⟨Finset.subset_insert _ _, subset_rfl, fun x hx => List.mem_cons_of_mem _ hx⟩
      split
      · split
        · exact hs1
        · exact stateLE_trans hs1 (resolveImportList_mono env fuel ih _ _ _)
      · exact hs1

/-! ### Soundness: every collected dependency is transitively reachable -/

/-- The import relation as a `Prop`-valued relation. -/
def EdgeRel (env : ImportEnv V M) (p q : V) : Prop :=
  importEdge env p q = true

instance (env : ImportEnv V M) (p q : V) : Decidable (EdgeRel env p q) :=
  inferInstanceAs (Decidable (importEdge env p q = true))

theorem importEdge_intro (env : ImportEnv V M) {p q : V} {msAll : List M}
    {m : M} (h1 : env.fexists p = true) (h2 : env.suffixPy p = true)
    (h3 : env.parseImports p = some msAll) (hm : m ∈ msAll)
    (h4 : env.isStdlib m = false) (h5 : env.resolve m p = some q)
    (h6 : env.fexists q = true) : EdgeRel env p q := by
  unfold EdgeRel importEdge
  simp only [h1, h2, h3, Bool.and_self, Bool.true_and, List.any_eq_true]
  exact ⟨m, hm, by simp [h4, h5, h6]⟩

/-- Soundness invariant for a walker state relative to the entry file:
every visited file is reachable from the entry (reflexively), and every
collected dependency is reachable via at least one import edge. -/
def SoundInv (env : ImportEnv V M) (entry : V) (s : WalkState V) : Prop :=
  (∀ x ∈ s.visited, Relation.ReflTransGen (EdgeRel env) entry x) ∧
  (∀ q ∈ s.deps, Relation.TransGen (EdgeRel env) entry q)

theorem resolveImport_sound (env : ImportEnv V M) (entry : V) (fuel : Nat)
    (hrec : ∀ p s, SoundInv env entry s →
      Relation.ReflTransGen (EdgeRel env) entry p →
      SoundInv env entry (resolveDependenciesRecursive env fuel p s))
    (m : M) (p : V) (s : WalkState V) {msAll : List M}
    (hInv : SoundInv env entry s)
    (hp : Relation.ReflTransGen (EdgeRel env) entry p)
    (h1 : env.fexists p = true) (h2 : env.suffixPy p = true)
    (h3 : env.parseImports p = some msAll) (hm : m ∈ msAll) :
    SoundInv env entry (resolveImport env fuel m p s) := by
  unfold resolveImport
  split
  · exact hInv
  · rename_i hstd
    split
    · exact hInv
    · rename_i q hq
      split
      · rename_i hqx
        have hedge : EdgeRel env p q :=
          importEdge_intro env h1 h2 h3 hm (by simpa using hstd) hq hqx
        apply hrec
        · refine ⟨hInv.1, ?_⟩
          intro r hr
          rcases Finset.mem_insert.mp hr with h | h
          · subst h
            exact Relation.TransGen.tail' hp hedge
          · exact hInv.2 r h
        · exact Relation.ReflTransGen.trans hp
            (Relation.ReflTransGen.single hedge)
      · exact hInv

theorem resolveImportList_sound (env : ImportEnv V M) (entry : V)
    (fuel : Nat)
    (hrec : ∀ p s, SoundInv env entry s →
      Relation.ReflTransGen (EdgeRel env) entry p →
      SoundInv env entry (resolveDependenciesRecursive env fuel p s)) :
    ∀ (ms : List M) (p : V) (s : WalkState V) {msAll : List M},
      (∀ m ∈ ms, m ∈ msAll) →
      SoundInv env entry s →
      Relation.ReflTransGen (EdgeRel env) entry p →
      env.fexists p = true → env.suffixPy p = true →
      env.parseImports p = some msAll →
      SoundInv env entry (resolveImportList env fuel ms p s) := by
  intro ms
  induction ms with
  | nil =>
    intro p s msAll _ hInv _ _ _ _
    rw [resolveImportList_nil]; exact hInv
  | cons m ms ih =>
    intro p s msAll hsub hInv hp h1 h2 h3
    rw [resolveImportList_cons]
    exact ih p _ (fun x hx => hsub x (List.mem_cons_of_mem _ hx))
      (resolveImport_sound env entry fuel hrec m p s hInv hp h1 h2 h3
        (hsub m (List.mem_cons_self _ _)))
      hp h1 h2 h3

theorem resolveDependenciesRecursive_sound (env : ImportEnv V M)
    (entry : V) :
    ∀ (fuel : Nat) (p : V) (s : WalkState V),
      SoundInv env entry s →
      Relation.ReflTransGen (EdgeRel env) entry p →
      SoundInv env entry (resolveDependenciesRecursive env fuel p s) := by
  intro fuel
  induction fuel with
  | zero =>
    intro p s hInv _
    rw [resolveDependenciesRecursive_zero]; exact hInv
  | succ fuel ih =>
    intro p s hInv hp
    rw [resolveDependenciesRecursive_succ]
    split
    · exact hInv
    · have hs1 : SoundInv env entry ⟨insert p s.visited, s.deps, p :: s.trace⟩ := by
        refine ⟨?_, hInv.2⟩
        intro x hx
        rcases Finset.mem_insert.mp hx with h | h
        · subst h; exact hp
        · exact hInv.1 x h
      split
      · rename_i hcond
        split
        · exact hs1
        · rename_i ms hms
          have hcond' := hcond
          rw [Bool.and_eq_true] at hcond'
          exact resolveImportList_sound env entry fuel ih ms p _
            (fun m hm => hm) hs1 hp hcond'.1 hcond'.2 hms
      · exact hs1

/-! ### Completeness: with sufficient fuel, every visited file is fully
expanded, so nothing reachable is missed -/

theorem importEdge_elim (env : ImportEnv V M) {p q : V}
    (h : EdgeRel env p q) :
    env.fexists p = true ∧ env.suffixPy p = true ∧
      ∃ ms, env.parseImports p = some ms ∧
        ∃ m ∈ ms, env.isStdlib m = false ∧ env.resolve m p = some q ∧
          env.fexists q = true := by
  unfold EdgeRel importEdge at h
  rw [Bool.and_eq_true, Bool.and_eq_true] at h
  obtain ⟨⟨h1, h2⟩, h3⟩ := h
  refine ⟨h1, h2, ?_⟩
  revert h3
  match hms : env.parseImports p with
  | none => intro h3; cases h3
  | some ms =>
    intro h3
    rw [List.any_eq_true] at h3
    obtain ⟨m, hm, hb⟩ := h3
    rw [Bool.and_eq_true] at hb
    obtain ⟨hstd, hres⟩ := hb
    refine ⟨ms, rfl, m, hm, by simpa using hstd, ?_⟩
    revert hres
    match hr : env.resolve m p with
    | none => intro hres; cases hres
    | some r =>
      intro hres
      rw [Bool.and_eq_true] at hres
      obtain ⟨hrq, hrx⟩ := hres
      have : r = q := by simpa using hrq
      subst this
      exact ⟨rfl, hrx⟩

/-- A file `p` is fully expanded in state `t`: every import target of
`p` has been recorded in the dependency set and visited. -/
def Expanded (env : ImportEnv V M) (t : WalkState V) (p : V) : Prop :=
  ∀ q, EdgeRel env p q → q ∈ t.deps ∧ q ∈ t.visited

theorem Expanded.mono {env : ImportEnv V M} {t t' : WalkState V} {p : V}
    (h : Expanded env t p) (hle : StateLE t t') : Expanded env t' p :=
  fun q hq => ⟨hle.2.1 (h q hq).1, hle.1 (h q hq).2⟩

/-- The number of files not yet visited; the quantity that makes the
fuel argument go through. -/
def freeCount [Fintype V] (s : WalkState V) : Nat :=
  (Finset.univ \ s.visited).card

theorem freeCount_mono [Fintype V] {s t : WalkState V}
    (h : s.visited ⊆ t.visited) : freeCount t ≤ freeCount s :=
  Finset.card_le_card (fun x hx => by
    rw [Finset.mem_sdiff] at hx ⊢
    exact ⟨hx.1, fun hc => hx.2 (h hc)⟩)

theorem freeCount_insert [Fintype V] {s : WalkState V} {p : V}
    (hp : p ∉ s.visited) (d : Finset V) (tr : List V) :
    freeCount (⟨insert p s.visited, d, tr⟩ : WalkState V) + 1 =
      freeCount s := by
  unfold freeCount
  have h1 : (Finset.univ \ insert p s.visited : Finset V) =
      (Finset.univ \ s.visited).erase p := by
    ext x
    simp only [Finset.mem_sdiff, Finset.mem_insert, Finset.mem_erase,
      Finset.mem_univ, true_and]
    tauto
  have h2 : p ∈ (Finset.univ \ s.visited : Finset V) := by
    rw [Finset.mem_sdiff]; exact ⟨Finset.mem_univ p, hp⟩
  rw [h1, Finset.card_erase_of_mem h2]
  have := Finset.card_pos.mpr ⟨p, h2⟩
  omega

theorem resolveImport_post [Fintype V] (env : ImportEnv V M) (fuel : Nat)
    (hrec : ∀ (p : V) (s : WalkState V), freeCount s + 1 ≤ fuel →
      p ∈ (resolveDependenciesRecursive env fuel p s).visited ∧
      ∀ x ∈ (resolveDependenciesRecursive env fuel p s).visited,
        x ∉ s.visited →
        Expanded env (resolveDependenciesRecursive env fuel p s) x)
    (m : M) (p : V) (s : WalkState V) (hfuel : freeCount s + 1 ≤ fuel) :
    (∀ x ∈ (resolveImport env fuel m p s).visited, x ∉ s.visited →
      Expanded env (resolveImport env fuel m p s) x) ∧
    (∀ q, env.isStdlib m = false → env.resolve m p = some q →
      env.fexists q = true →
      q ∈ (resolveImport env fuel m p s).deps ∧
      q ∈ (resolveImport env fuel m p s).visited) := by
  unfold resolveImport
  split
  · rename_i hstd
    refine ⟨fun x hx hxn => absurd hx hxn, ?_⟩
    intro q hq _ _
    rw [hstd] at hq; cases hq
  · rename_i hstd
    split
    · rename_i hres
      refine ⟨fun x hx hxn => absurd hx hxn, ?_⟩
      intro q _ hq _
      rw [hq] at hres; cases hres
    · rename_i q hres
      split
      · rename_i hqx
        have h2 := hrec q (⟨s.visited, insert q s.deps, s.trace⟩ : WalkState V)
          (by simpa [freeCount] using hfuel)
        constructor
        · intro x hx hxn
          exact h2.2 x hx hxn
        · intro r _ hr _
          obtain rfl : q = r := Option.some.inj (hres.symm.trans hr)
          refine ⟨?_, h2.1⟩
          have hle := resolveDependenciesRecursive_mono env fuel q
            (⟨s.visited, insert q s.deps, s.trace⟩ : WalkState V)
          exact hle.2.1 (Finset.mem_insert_self _ _)
      · rename_i hqx
        refine ⟨fun x hx hxn => absurd hx hxn, ?_⟩
        intro r _ hr hrx
        obtain rfl : q = r := Option.some.inj (hres.symm.trans hr)
        rw [hrx] at hqx; exact absurd rfl hqx

theorem resolveImportList_post [Fintype V] (env : ImportEnv V M)
    (fuel : Nat)
    (hrec : ∀ (p : V) (s : WalkState V), freeCount s + 1 ≤ fuel →
      p ∈ (resolveDependenciesRecursive env fuel p s).visited ∧
      ∀ x ∈ (resolveDependenciesRecursive env fuel p s).visited,
        x ∉ s.visited →
        Expanded env (resolveDependenciesRecursive env fuel p s) x) :
    ∀ (ms : List M) (p : V) (s : WalkState V),
      freeCount s + 1 ≤ fuel →
      (∀ x ∈ (resolveImportList env fuel ms p s).visited, x ∉ s.visited →
        Expanded env (resolveImportList env fuel ms p s) x) ∧
      (∀ m ∈ ms, ∀ q, env.isStdlib m = false → env.resolve m p = some q →
        env.fexists q = true →
        q ∈ (resolveImportList env fuel ms p s).deps ∧
        q ∈ (resolveImportList env fuel ms p s).visited) := by
  intro ms
  induction ms with
  | nil =>
    intro p s _
    rw [resolveImportList_nil]
    exact ⟨fun x hx hxn => absurd hx hxn, fun m hm => absurd hm (by simp)⟩
  | cons m ms ih =>
    intro p s hfuel
    rw [resolveImportList_cons]
    have hmono1 : StateLE s (resolveImport env fuel m p s) := by
      apply resolveImport_mono env fuel
      intro p' s'
      exact resolveDependenciesRecursive_mono env fuel p' s'
    have hfuel1 : freeCount (resolveImport env fuel m p s) + 1 ≤ fuel :=
      le_trans (by have := freeCount_mono (s := s) hmono1.1; omega) hfuel
    have h1 := resolveImport_post env fuel hrec m p s hfuel
    have h2 := ih p (resolveImport env fuel m p s) hfuel1
    have hmono2 : StateLE (resolveImport env fuel m p s)
        (resolveImportList env fuel ms p (resolveImport env fuel m p s)) := by
      apply resolveImportList_mono env fuel
      intro p' s'
      exact resolveDependenciesRecursive_mono env fuel p' s'
    constructor
    · intro x hx hxn
      by_cases hx1 : x ∈ (resolveImport env fuel m p s).visited
      · exact (h1.1 x hx1 hxn).mono hmono2
      · exact h2.1 x hx hx1
    · intro m' hm' q hstd hres hqx
      rcases List.mem_cons.mp hm' with h | h
      · subst h
        have := h1.2 q hstd hres hqx
        exact ⟨hmono2.2.1 this.1, hmono2.1 this.2⟩
      · exact h2.2 m' h q hstd hres hqx

theorem resolveDependenciesRecursive_post [Fintype V]
    (env : ImportEnv V M) :
    ∀ (fuel : Nat) (p : V) (s : WalkState V), freeCount s + 1 ≤ fuel →
      p ∈ (resolveDependenciesRecursive env fuel p s).visited ∧
      ∀ x ∈ (resolveDependenciesRecursive env fuel p s).visited,
        x ∉ s.visited →
        Expanded env (resolveDependenciesRecursive env fuel p s) x := by
  intro fuel
  induction fuel with
  | zero => intro p s hfuel; omega
  | succ fuel ih =>
    intro p s hfuel
    rw [resolveDependenciesRecursive_succ]
    split
    · rename_i hp
      exact ⟨hp, fun x hx hxn => absurd hx hxn⟩
    · rename_i hp
      have hfree1 := freeCount_insert (s := s) hp s.deps (p :: s.trace)
      split
      · rename_i hcond
        split
        · rename_i hparse
          constructor
          · exact Finset.mem_insert_self _ _
          · intro x hx hxn
            have : x = p := by
              rcases Finset.mem_insert.mp hx with h | h
              · exact h
              · exact absurd h hxn
            subst this
            intro q hq
            obtain ⟨_, _, ms, hms, _⟩ := importEdge_elim env hq
            rw [hparse] at hms; cases hms
        · rename_i ms hparse
          have hfuel1 : freeCount
              (⟨insert p s.visited, s.deps, p :: s.trace⟩ : WalkState V) + 1 ≤
              fuel := by omega
          have hpost := resolveImportList_post env fuel ih ms p
            (⟨insert p s.visited, s.deps, p :: s.trace⟩ : WalkState V) hfuel1
          have hmono : StateLE
              (⟨insert p s.visited, s.deps, p :: s.trace⟩ : WalkState V)
              (resolveImportList env fuel ms p
                (⟨insert p s.visited, s.deps, p :: s.trace⟩ : WalkState V)) := by
            apply resolveImportList_mono env fuel
            intro p' s'
            exact resolveDependenciesRecursive_mono env fuel p' s'
          constructor
          · exact hmono.1 (Finset.mem_insert_self _ _)
          · intro x hx hxn
            by_cases hx1 : x ∈ (insert p s.visited : Finset V)
            · have : x = p := by
                rcases Finset.mem_insert.mp hx1 with h | h
                · exact h
                · exact absurd h hxn
              subst this
              intro q hq
              obtain ⟨_, _, msAll, hmsAll, m, hm, hstd, hres, hqx⟩ :=
                importEdge_elim env hq
              rw [hparse] at hmsAll
              injection hmsAll with h
              subst h
              exact hpost.2 m hm q hstd hres hqx
            · exact hpost.1 x hx hx1
      · rename_i hcond
        constructor
        · exact Finset.mem_insert_self _ _
        · intro x hx hxn
          have : x = p := by
            rcases Finset.mem_insert.mp hx with h | h
            · exact h
            · exact absurd h hxn
          subst this
          intro q hq
          obtain ⟨h1, h2, _⟩ := importEdge_elim env hq
          rw [h1, h2] at hcond
          simp at hcond

/-! ### The ghost trace never repeats a file (`if file_path in visited:
return` guard, lines 80-83) -/

/-- Trace invariant: the trace of processed files has no duplicates and
contains exactly the visited files. -/
def TraceInv (s : WalkState V) : Prop :=
  s.trace.Nodup ∧ ∀ x, x ∈ s.trace ↔ x ∈ s.visited

theorem resolveImport_trace (env : ImportEnv V M) (fuel : Nat)
    (hrec : ∀ p s, TraceInv s →
      TraceInv (resolveDependenciesRecursive env fuel p s))
    (m : M) (p : V) (s : WalkState V) (hs : TraceInv s) :
    TraceInv (resolveImport env fuel m p s) := by
  unfold resolveImport
  split
  · exact hs
  · split
    · exact hs
    · split
      · exact hrec _ _ ⟨hs.1, hs.2⟩
      · exact hs

theorem resolveImportList_trace (env : ImportEnv V M) (fuel : Nat)
    (hrec : ∀ p s, TraceInv s →
      TraceInv (resolveDependenciesRecursive env fuel p s)) :
    ∀ (ms : List M) (p : V) (s : WalkState V), TraceInv s →
      TraceInv (resolveImportList env fuel ms p s) := by
  intro ms
  induction ms with
  | nil => intro p s hs; rw [resolveImportList_nil]; exact hs
  | cons m ms ih =>
    intro p s hs
    rw [resolveImportList_cons]
    exact ih p _ (resolveImport_trace env fuel hrec m p s hs)

theorem resolveDependenciesRecursive_trace (env : ImportEnv V M) :
    ∀ (fuel : Nat) (p : V) (s : WalkState V), TraceInv s →
      TraceInv (resolveDependenciesRecursive env fuel p s) := by
  intro fuel
  induction fuel with
  | zero => intro p s hs; rw [resolveDependenciesRecursive_zero]; exact hs
  | succ fuel ih =>
    intro p s hs
    rw [resolveDependenciesRecursive_succ]
    split
    · exact hs
    · rename_i hp
      have hs1 : TraceInv
          (⟨insert p s.visited, s.deps, p :: s.trace⟩ : WalkState V) := by
        constructor
        · exact List.nodup_cons.mpr ⟨fun hmem => hp ((hs.2 p).mp hmem), hs.1⟩
        · intro x
          constructor
          · intro hx
            rcases List.mem_cons.mp hx with h | h
            · subst h; exact Finset.mem_insert_self _ _
            · exact Finset.mem_insert_of_mem ((hs.2 x).mp h)
          · intro hx
            rcases Finset.mem_insert.mp hx with h | h
            · subst h; exact List.mem_cons_self _ _
            · exact List.mem_cons_of_mem _ ((hs.2 x).mpr h)
      split
      · split
        · exact hs1
        · exact resolveImportList_trace env fuel ih _ _ _ hs1
      · exact hs1

/-! ### Characterization of one full walk -/

theorem walk_visited_iff [Fintype V] (env : ImportEnv V M) (entry : V)
    (fuel : Nat) (hfuel : Fintype.card V + 1 ≤ fuel) (x : V) :
    x ∈ (resolveDependenciesRecursive env fuel entry
        (initState : WalkState V)).visited ↔
      Relation.ReflTransGen (EdgeRel env) entry x := by
  have hfree : freeCount (initState : WalkState V) + 1 ≤ fuel := by
    simpa [freeCount, initState] using hfuel
  have hpost := resolveDependenciesRecursive_post env fuel entry
    (initState : WalkState V) hfree
  constructor
  · intro hx
    have hsound := resolveDependenciesRecursive_sound env entry fuel entry
      (initState : WalkState V)
      ⟨fun y hy => absurd hy (Finset.not_mem_empty y),
       fun y hy => absurd hy (Finset.not_mem_empty y)⟩
      Relation.ReflTransGen.refl
    exact hsound.1 x hx
  · intro hx
    induction hx with
    | refl => exact hpost.1
    | @tail b c hab hbc ih =>
      have hexp := hpost.2 b ih (Finset.not_mem_empty b)
      exact (hexp c hbc).2

theorem walk_deps_iff [Fintype V] (env : ImportEnv V M) (entry : V)
    (fuel : Nat) (hfuel : Fintype.card V + 1 ≤ fuel) (q : V) :
    q ∈ (resolveDependenciesRecursive env fuel entry
        (initState : WalkState V)).deps ↔
      Relation.TransGen (EdgeRel env) entry q := by
  have hfree : freeCount (initState : WalkState V) + 1 ≤ fuel := by
    simpa [freeCount, initState] using hfuel
  have hpost := resolveDependenciesRecursive_post env fuel entry
    (initState : WalkState V) hfree
  constructor
  · intro hq
    have hsound := resolveDependenciesRecursive_sound env entry fuel entry
      (initState : WalkState V)
      ⟨fun y hy => absurd hy (Finset.not_mem_empty y),
       fun y hy => absurd hy (Finset.not_mem_empty y)⟩
      Relation.ReflTransGen.refl
    exact hsound.2 q hq
  · intro hq
    induction hq with
    | single hbc =>
      have hexp := hpost.2 entry hpost.1 (Finset.not_mem_empty entry)
      exact (hexp _ hbc).1
    | @tail b c hab hbc ih =>
      have hb : b ∈ (resolveDependenciesRecursive env fuel entry
          (initState : WalkState V)).visited :=
        (walk_visited_iff env entry fuel hfuel b).mpr hab.to_reflTransGen
      have hexp := hpost.2 b hb (Finset.not_mem_empty b)
      exact (hexp c hbc).1

/-- Termination / fuel stability: any fuel of at least
`Fintype.card V + 1` produces the same visited set and the same
dependency set as the canonical run, so the bounded recursion faithfully
represents the terminating Python recursion. -/
theorem walk_fuel_stable [Fintype V] (env : ImportEnv V M) (entry : V)
    (fuel : Nat) (hfuel : Fintype.card V + 1 ≤ fuel) :
    (resolveDependenciesRecursive env fuel entry
        (initState : WalkState V)).visited =
      (resolveDependenciesRecursive env (Fintype.card V + 1) entry
        (initState : WalkState V)).visited ∧
    (resolveDependenciesRecursive env fuel entry
        (initState : WalkState V)).deps =
      (resolveDependenciesRecursive env (Fintype.card V + 1) entry
        (initState : WalkState V)).deps := by
  constructor
  · ext x
    rw [walk_visited_iff env entry fuel hfuel x,
      walk_visited_iff env entry (Fintype.card V + 1) le_rfl x]
  · ext q
    rw [walk_deps_iff env entry fuel hfuel q,
      walk_deps_iff env entry (Fintype.card V + 1) le_rfl q]

/-! ### Concrete projects used to witness the walker theorems -/

/-- A two-file acyclic project: file `0` imports file `1`, file `1`
imports nothing.  Both exist and are `.py` files. -/
def envAcyclic : ImportEnv (Fin 2) Unit where
  fexists := fun _ => true
  suffixPy := fun _ => true
  parseImports := fun p => if p = 0 then some [()] else some []
  isStdlib := fun _ => false
  resolve := fun _ p => if p = 0 then some 1 else none

/-- A one-file cyclic project: file `0` imports itself. -/
def envCyclic : ImportEnv (Fin 1) Unit where
  fexists := fun _ => true
  suffixPy := fun _ => true
  parseImports := fun _ => some [()]
  isStdlib := fun _ => false
  resolve := fun _ _ => some 0

theorem envAcyclic_no_cycle :
    ∀ p, ¬ Relation.TransGen (EdgeRel envAcyclic) p p := by
  have hinto0 : ∀ a : Fin 2, ¬ EdgeRel envAcyclic a 0 := by decide
  have hinto1 : ∀ a : Fin 2, EdgeRel envAcyclic a 1 → a = 0 := by decide
  intro p h
  cases h with
  | single h1 =>
    fin_cases p
    · exact hinto0 0 h1
    · exact hinto0 1 (hinto1 1 h1 ▸ h1)
  | tail hb he =>
    rename_i b
    fin_cases p
    · exact hinto0 b he
    · have hb0 : b = 0 := hinto1 b he
      subst hb0
      cases hb with
      | single h2 => exact hinto0 1 h2
      | tail _ he2 => exact hinto0 _ he2

/-! ### Claim theorems C1 and C2 -/

/-- **C1.** For every acyclic import graph, the Dependency Tree
Walker's result set (the set returned by `_analyze_dependency_tree` on
the entry file) equals the mathematical transitive closure of the import
relation restricted to first-party resolvable files reachable from the
entry file. -/
theorem walker_acyclic_result_is_transitive_closure
    {V M : Type} [DecidableEq V] [Fintype V] (env : ImportEnv V M)
    (entry : V)
    (hacyc : ∀ p, ¬ Relation.TransGen (EdgeRel env) p p) (q : V) :
    q ∈ analyzeDependencyTree env entry ↔
      Relation.TransGen (EdgeRel env) entry q :=
  walk_deps_iff env entry (Fintype.card V + 1) le_rfl q

/-- Witness for C1: the acyclicity hypothesis is satisfiable (the
two-file project `envAcyclic`) and the theorem applies to it. -/
theorem walker_acyclic_result_is_transitive_closure_witness :
    (∀ p, ¬ Relation.TransGen (EdgeRel envAcyclic) p p) ∧
    ((1 : Fin 2) ∈ analyzeDependencyTree envAcyclic 0 ↔
      Relation.TransGen (EdgeRel envAcyclic) 0 1) ∧
    (1 : Fin 2) ∈ analyzeDependencyTree envAcyclic 0 :=
  ⟨envAcyclic_no_cycle,
    walker_acyclic_result_is_transitive_closure envAcyclic 0
      envAcyclic_no_cycle 1,
    by decide⟩

/-- **C2.** For every cyclic import graph (including a file importing
itself), the Dependency Tree Walker terminates — modelled as: any fuel
of at least `Fintype.card V + 1` yields the same visited set and the
same result set, so the recursion depth is bounded independently of the
cycle —, visits each file at most once (the ghost trace of processed
files has no duplicates, and records exactly the files reachable from
the entry), and its result set still equals the transitive closure (no
node duplicated or omitted because of the cycle). -/
theorem walker_cyclic_terminates_no_revisit_and_closure
    {V M : Type} [DecidableEq V] [Fintype V] (env : ImportEnv V M)
    (entry : V)
    (hcyc : ∃ p, Relation.TransGen (EdgeRel env) p p) :
    (∀ fuel, Fintype.card V + 1 ≤ fuel →
      (resolveDependenciesRecursive env fuel entry
          (initState : WalkState V)).visited =
        (resolveDependenciesRecursive env (Fintype.card V + 1) entry
          (initState : WalkState V)).visited ∧
      (resolveDependenciesRecursive env fuel entry
          (initState : WalkState V)).deps =
        analyzeDependencyTree env entry) ∧
    ((resolveDependenciesRecursive env (Fintype.card V + 1) entry
        (initState : WalkState V)).trace.Nodup ∧
      ∀ x, x ∈ (resolveDependenciesRecursive env (Fintype.card V + 1)
          entry (initState : WalkState V)).trace ↔
        Relation.ReflTransGen (EdgeRel env) entry x) ∧
    (∀ q, q ∈ analyzeDependencyTree env entry ↔
      Relation.TransGen (EdgeRel env) entry q) := by
  have h := resolveDependenciesRecursive_trace env
    (Fintype.card V + 1) entry (initState : WalkState V)
    ⟨List.nodup_nil, fun x => by
      constructor
      · intro hx; exact absurd hx (List.not_mem_nil x)
      · intro hx; exact absurd hx (Finset.not_mem_empty x)⟩
  refine ⟨?_, ⟨h.1, ?_⟩, ?_⟩
  · intro fuel hfuel
    exact walk_fuel_stable env entry fuel hfuel
  · intro x
    exact (h.2 x).trans
      (walk_visited_iff env entry (Fintype.card V + 1) le_rfl x)
  · intro q
    exact walk_deps_iff env entry (Fintype.card V + 1) le_rfl q

/-- Witness for C2: the cyclicity hypothesis is satisfiable (the
self-importing project `envCyclic`) and the theorem applies to it. -/
theorem walker_cyclic_terminates_no_revisit_and_closure_witness :
    Relation.TransGen (EdgeRel envCyclic) 0 0 ∧
    ((0 : Fin 1) ∈ analyzeDependencyTree envCyclic 0 ↔
      Relation.TransGen (EdgeRel envCyclic) 0 0) ∧
    (0 : Fin 1) ∈ analyzeDependencyTree envCyclic 0 :=
  have htg : Relation.TransGen (EdgeRel envCyclic) 0 0 :=
    Relation.TransGen.single (by decide)
  ⟨htg,
    (walker_cyclic_terminates_no_revisit_and_closure envCyclic 0
      ⟨0, htg⟩).2.2 0,
    by decide⟩

/-! ## Python string primitives

Lean's `Substring`-based string functions do not reduce in the kernel,
so the Python string methods used by the builders are modelled directly
over `List Char` (ASCII is assumed for `str.strip`'s whitespace set and
the identifier characters). -/

/-- The characters Python's `str.strip()` removes. -/
def isPySpace (c : Char) : Bool :=
  c = ' ' || c = '\t' || c = '\n' || c = '\r' || c = '\x0b' || c = '\x0c'

/-- Python `str.split(sep)` for a one-character separator, over char
lists: `"a.b.c".split('.') = ["a", "b", "c"]`, `"".split('.') = [""]`. -/
def splitOnChar (c : Char) : List Char → List (List Char)
  | [] => [[]]
  | x :: rest =>
    let r := splitOnChar c rest
    if x = c then [] :: r
    else
      match r with
      | [] => [[x]]
      | y :: ys => (x :: y) :: ys

/-- Python `str.split(sep)` on strings. -/
def pySplit (s : String) (c : Char) : List String :=
  (splitOnChar c s.toList).map String.mk

/-- Python `str.startswith(pre)`. -/
def strStartsWith (s pre : String) : Bool :=
  pre.toList.isPrefixOf s.toList

/-- Python `str.endswith(suf)`. -/
def strEndsWith (s suf : String) : Bool :=
  suf.toList.isSuffixOf s.toList

/-- Python `str.strip()`. -/
def pyStrip (s : String) : String :=
  String.mk (((s.toList.dropWhile isPySpace).reverse.dropWhile
    isPySpace).reverse)

/-! ## Function packager (`lambda_builder.py`, lines 26-63 and 196-251)

Concrete paths are modelled as lists of path components.
-/

/-- `file_path.relative_to(src_dir)` (line 214): the path relative to
the source root, or `none` when the file is not under the source root
(in Python, `relative_to` raises `ValueError`, caught by the per-file
`except` of lines 231-232, which skips the file with a warning). -/
def relativeTo (srcRoot p : List String) : Option (List String) :=
  if srcRoot.isPrefixOf p then some (p.drop srcRoot.length) else none

/-- `LambdaBuilder._should_include_file` (lines 236-251): include a
dependency iff its first path component (relative to the source root)
is `application`, `domain` or `orm`, or its filename ends in
`_handler.py`; everything else (adapters, utils, migrations, ...) is
excluded. -/
def shouldIncludeFile (relativePath : List String) : Bool :=
  (match relativePath with
   | first :: _ =>
     decide (first = "application") || decide (first = "domain") ||
       decide (first = "orm")
   | [] => false) ||
  (match relativePath.getLast? with
   | some nm => strEndsWith nm "_handler.py"
   | none => false)

/-- `LambdaBuilder._copy_dependency_files` (lines 207-234): the
dependency files actually copied into the staging directory.  A file is
copied iff it is under the source root (otherwise `relative_to` raises
and the per-file `except` skips it) and `_should_include_file` accepts
its relative path; `copied_count` is the length of this list.  Per-file
exceptions are caught (lines 231-232), so this step never fails the
build. -/
def copyDependencyFiles (srcRoot : List String)
    (dependencyFiles : List (List String)) : List (List String) :=
  dependencyFiles.filter fun f =>
    match relativeTo srcRoot f with
    | some rel => shouldIncludeFile rel
    | none => false

/-- The source files whose content ends up in the function archive: the
handler entry file (copied unconditionally into the staging root by
`_copy_handler_file`, line 47) plus the filtered dependency files. -/
def lambdaArchiveSources (srcRoot entryFile : List String)
    (deps : List (List String)) : List (List String) :=
  entryFile :: copyDependencyFiles srcRoot deps

/-- Fault oracle for one execution of `LambdaBuilder.build` (lines
26-63): which build step raises an exception.  `analyzeRaises` models
an exception escaping the recursive walk to the `except` handler of
`_analyze_dependency_tree` (lines 74-76), which swallows it and returns
an empty set. -/
structure LambdaFaults where
  cleanupPrevRaises : Bool
  createStagingRaises : Bool
  analyzeRaises : Bool
  copyHandlerRaises : Bool
  createZipRaises : Bool
  cleanupStagingRaises : Bool

/-- Observable outcome of one execution of `LambdaBuilder.build`:
the returned boolean, whether the staging directory created by this
build still exists on return, and the archive contents (as source
files) if the zip file was written. -/
structure BuildOutcome where
  success : Bool
  stagingExists : Bool
  archive : Option (List (List String))

/-- `LambdaBuilder.build` (lines 26-63), step by step:
check the handler file exists (lines 35-37, fail fast), clean and
recreate the staging directory (lines 40-41), analyze the dependency
tree (line 44; an exception escaping to `_analyze_dependency_tree`'s
handler yields the empty set), copy the handler (line 47), copy the
filtered dependencies (line 50, never raises outward), create the zip
(line 53), delete the staging directory (line 56).  Any exception is
caught by the `except` of lines 61-63 and turned into a `False` return
— with no cleanup of the staging directory on that path. -/
def lambdaBuild (fl : LambdaFaults) (handlerExists : Bool)
    (srcRoot entryFile : List String)
    (analyzedDeps : List (List String)) : BuildOutcome :=
  if !handlerExists then ⟨false, false, none⟩
  else if fl.cleanupPrevRaises then ⟨false, false, none⟩
  else if fl.createStagingRaises then ⟨false, false, none⟩
  else
    let dependencyTree := if fl.analyzeRaises then [] else analyzedDeps
    if fl.copyHandlerRaises then ⟨false, true, none⟩
    else if fl.createZipRaises then ⟨false, true, none⟩
    else if fl.cleanupStagingRaises then
      ⟨false, true, some (lambdaArchiveSources srcRoot entryFile dependencyTree)⟩
    else ⟨true, false, some (lambdaArchiveSources srcRoot entryFile dependencyTree)⟩

/-- The fault-free execution. -/
def noLambdaFaults : LambdaFaults := ⟨false, false, false, false, false, false⟩

/-- Fault oracle for one execution of `LayerBuilder.build`
(`layer_builder.py`, lines 30-61). -/
structure LayerFaults where
  cleanupPrevRaises : Bool
  createTempRaises : Bool
  copytreeRaises : Bool
  createZipRaises : Bool
  cleanupTempRaises : Bool

/-- Observable outcome of one execution of `LayerBuilder.build`. -/
structure LayerOutcome where
  success : Bool
  tempExists : Bool
  archiveWritten : Bool

/-- `LayerBuilder.build` (lines 30-61): check the layer source folder
exists (lines 37-39), clean and recreate the temp staging directory
with its `python` wrapper (lines 42-44), copy the layer tree (line 47),
create the zip (lines 50-51), delete the temp directory (line 54).
Any exception is caught at lines 59-61 and turned into `False` — again
with no cleanup of the temp directory on that path. -/
def layerBuild (fl : LayerFaults) (srcLayerExists : Bool) : LayerOutcome :=
  if !srcLayerExists then ⟨false, false, false⟩
  else if fl.cleanupPrevRaises then ⟨false, false, false⟩
  else if fl.createTempRaises then ⟨false, false, false⟩
  else if fl.copytreeRaises then ⟨false, true, false⟩
  else if fl.createZipRaises then ⟨false, true, false⟩
  else if fl.cleanupTempRaises then ⟨false, true, true⟩
  else ⟨true, false, true⟩

/-- The fault-free layer build. -/
def noLayerFaults : LayerFaults := ⟨false, false, false, false, false⟩

/-! ### Claim theorems C3, C4 and C10 -/

theorem shouldIncludeFile_iff (parts : List String) :
    shouldIncludeFile parts = true ↔
      ((∃ first rest, parts = first :: rest ∧
         (first = "application" ∨ first = "domain" ∨ first = "orm")) ∨
       (∃ nm, parts.getLast? = some nm ∧ strEndsWith nm "_handler.py" = true)) := by
  unfold shouldIncludeFile
  cases parts with
  | nil => simp
  | cons first rest =>
    rcases hl : (first :: rest).getLast? with _ | nm
    · rw [List.getLast?_eq_none_iff] at hl
      cases hl
    · simp only [hl, Bool.or_eq_true, decide_eq_true_eq]
      constructor
      · rintro (h | h)
        · exact Or.inl ⟨first, rest, rfl, by tauto⟩
        · exact Or.inr ⟨nm, rfl, h⟩
      · rintro (⟨f1, r1, heq, hf⟩ | ⟨nm2, hnm2, hend⟩)
        · injection heq with h1 h2
          subst h1
          exact Or.inl (by tauto)
        · injection hnm2 with h1
          subst h1
          exact Or.inr hend

/-- **C3.** For every function build, a source file under the source
root is included in the function's archive iff it lies in the
dependency closure of the entry file and its first path segment
relative to the source root is one of `application`, `domain`, `orm`,
or its filename ends with `_handler.py`, or it is the entry file
itself; closure files under any other top-level folder are merely
skipped — the fault-free build still succeeds whatever the closure
contains. -/
theorem archive_inclusion_iff (srcRoot entryFile : List String)
    (deps : List (List String)) (f : List String) (parts : List String)
    (hrel : relativeTo srcRoot f = some parts) :
    (f ∈ lambdaArchiveSources srcRoot entryFile deps ↔
      (f = entryFile ∨ (f ∈ deps ∧
        ((∃ first rest, parts = first :: rest ∧
           (first = "application" ∨ first = "domain" ∨ first = "orm")) ∨
         (∃ nm, parts.getLast? = some nm ∧
           strEndsWith nm "_handler.py" = true))))) ∧
    (lambdaBuild noLambdaFaults true srcRoot entryFile deps).success = true := by
  constructor
  · unfold lambdaArchiveSources copyDependencyFiles
    rw [List.mem_cons, List.mem_filter]
    constructor
    · intro h
      rcases h with h | ⟨hd, hp⟩
      · exact Or.inl h
      · rw [hrel] at hp
        exact Or.inr ⟨hd, (shouldIncludeFile_iff parts).mp hp⟩
    · intro h
      rcases h with h | ⟨hd, hcond⟩
      · exact Or.inl h
      · refine Or.inr ⟨hd, ?_⟩
        rw [hrel]
        exact (shouldIncludeFile_iff parts).mpr hcond
  · rfl

/-- Witness for C3 at a concrete build: the source root `proj/src`,
a handler entry file, and a closure containing a `utils` file; the
theorem applies, and in particular the build succeeds even though the
`utils` file is skipped. -/
theorem archive_inclusion_iff_witness :
    relativeTo ["proj", "src"] ["proj", "src", "utils", "helper.py"] =
      some ["utils", "helper.py"] ∧
    (lambdaBuild noLambdaFaults true ["proj", "src"]
      ["proj", "src", "handlers", "user_handler.py"]
      [["proj", "src", "utils", "helper.py"]]).success = true :=
  ⟨by decide,
    (archive_inclusion_iff ["proj", "src"]
      ["proj", "src", "handlers", "user_handler.py"]
      [["proj", "src", "utils", "helper.py"]]
      ["proj", "src", "utils", "helper.py"] ["utils", "helper.py"]
      (by decide)).2⟩

/-- **C4, counterexample.** The claim "no staging directory survives
past the build step that created it, on every terminating execution —
success or failure" is false: when `_create_zip` raises (line 53), the
`except` of lines 61-63 returns `False` without deleting the staging
directory, so the staging directory created by this build still exists
when `build` returns. -/
theorem staging_survives_when_zip_raises :
    (lambdaBuild ⟨false, false, false, false, true, false⟩ true
      ["proj", "src"] ["proj", "src", "handlers", "user_handler.py"]
      []).stagingExists = true := rfl

/-- **C4, amended.** On every successful execution of `build` (function
or layer), the staging directory created by that build no longer exists
when `build` returns; on failures after the staging directory was
created, it may survive (see the counterexample). -/
theorem staging_removed_on_success :
    (∀ (fl : LambdaFaults) (hnd : Bool) (srcRoot entryFile : List String)
      (deps : List (List String)),
      (lambdaBuild fl hnd srcRoot entryFile deps).success = true →
      (lambdaBuild fl hnd srcRoot entryFile deps).stagingExists = false) ∧
    (∀ (fl : LayerFaults) (ex : Bool),
      (layerBuild fl ex).success = true →
      (layerBuild fl ex).tempExists = false) := by
  constructor
  · intro fl hnd srcRoot entryFile deps hs
    rcases fl with ⟨c1, c2, c3, c4, c5, c6⟩
    cases hnd <;> cases c1 <;> cases c2 <;> cases c3 <;> cases c4 <;>
      cases c5 <;> cases c6 <;>
      first
        | rfl
        | exact Bool.noConfusion hs
  · intro fl ex hs
    rcases fl with ⟨c1, c2, c3, c4, c5⟩
    cases ex <;> cases c1 <;> cases c2 <;> cases c3 <;> cases c4 <;>
      cases c5 <;>
      first
        | rfl
        | exact Bool.noConfusion hs

/-- Witness for C4 (amended): a concrete fault-free function build
succeeds and its staging directory is gone on return. -/
theorem staging_removed_on_success_witness :
    (lambdaBuild noLambdaFaults true ["proj", "src"]
      ["proj", "src", "handlers", "user_handler.py"] []).success = true ∧
    (lambdaBuild noLambdaFaults true ["proj", "src"]
      ["proj", "src", "handlers", "user_handler.py"] []).stagingExists =
      false :=
  ⟨rfl,
    staging_removed_on_success.1 noLambdaFaults true ["proj", "src"]
      ["proj", "src", "handlers", "user_handler.py"] [] rfl⟩

/-- Concrete project for the C10 counterexample: file `0` imports file
`1`; reading/parsing file `1` raises an exception (modelled by
`parseImports 1 = none`, the convention documented on `ImportEnv` for
the `except` of lines 101-102). -/
def envParseError : ImportEnv (Fin 2) Unit where
  fexists := fun _ => true
  suffixPy := fun _ => true
  parseImports := fun p => if p = 0 then some [()] else none
  isStdlib := fun _ => false
  resolve := fun _ p => if p = 0 then some 1 else none

/-- **C10, counterexample.** An exception raised inside the
dependency-tree analysis does *not* in general make the analysis return
the empty set: a parse exception at file `1` is caught by the *inner*
`except` of `_resolve_dependencies_recursive` (lines 101-102), and the
analysis still returns the partial result `{1}` — not `∅` — after
which the build archives the entry file *and* file `1`. -/
theorem analysis_nonempty_despite_inner_exception :
    envParseError.parseImports 1 = none ∧
    analyzeDependencyTree envParseError 0 = {1} ∧
    analyzeDependencyTree envParseError 0 ≠ ∅ := by
  refine ⟨rfl, by decide, by decide⟩

/-- **C10, amended.** Only an exception that escapes the recursive walk
to `_analyze_dependency_tree`'s own handler (lines 74-76) makes the
analysis return the empty set instead of propagating; the build then
proceeds, reports success, and the archive contains only the entry
file.  (Read/parse exceptions raised at one file inside the walk are
caught per-file and leave a partial, possibly non-empty, result — see
the counterexample.) -/
theorem analysis_escape_exception_entry_only_archive
    (srcRoot entryFile : List String) (deps : List (List String)) :
    lambdaBuild ⟨false, false, true, false, false, false⟩ true srcRoot
        entryFile deps =
      ⟨true, false, some [entryFile]⟩ := rfl

/-! ## Absolute import resolution (`lambda_builder.py`, lines 163-194)

Paths are lists of components relative to the source root; `fexists`
models `Path.exists()`.  Note the `pathlib` semantics: `src_dir /
f"{module_name}.py"` makes the *dotted* module name (plus `.py`) a
single path component, while `src_dir / "/".join(parts[:-1]) /
f"{parts[-1]}.py"` produces one component per segment. -/

/-- `LambdaBuilder._resolve_absolute_import` (lines 163-194), literally:
try `possible_paths` in order (skipping the `None` entries), then the
package `__init__.py`, then `str(package_path) + ".py"`; return the
first existing path, or `none`. -/
def resolveAbsoluteImport (fexists : List String → Bool)
    (moduleName : String) : Option (List String) :=
  let moduleParts := pySplit moduleName '.'
  let possiblePaths : List (Option (List String)) :=
    [some [moduleName ++ ".py"],
     if moduleParts.length > 1 then
       some [moduleParts.headD "", moduleParts.getLastD "" ++ ".py"]
     else none,
     if moduleParts.length > 1 then
       some (moduleParts.dropLast ++ [moduleParts.getLastD "" ++ ".py"])
     else none]
  match possiblePaths.findSome? (fun p? =>
    match p? with
    | some p => if fexists p then some p else none
    | none => none) with
  | some p => some p
  | none =>
    let initFile := moduleParts ++ ["__init__.py"]
    if fexists initFile then some initFile
    else
      let pyFile := moduleParts.dropLast ++
        [moduleParts.getLastD "" ++ ".py"]
      if fexists pyFile then some pyFile
      else none

/-- Modelled from the spec: the candidate order the specification
describes for absolute resolution — "try, in order:
`<joined-path>.<ext>`, `<first-segment>/<last-segment>.<ext>`, and a
package-directory-with-index-file form. First existing match wins; no
match ⇒ unresolved".  Used only for comparison with
`resolveAbsoluteImport`. -/
def specResolveAbsoluteImport (fexists : List String → Bool)
    (moduleName : String) : Option (List String) :=
  let parts := pySplit moduleName '.'
  let joined := parts.dropLast ++ [parts.getLastD "" ++ ".py"]
  let firstLast := [parts.headD "", parts.getLastD "" ++ ".py"]
  let initFile := parts ++ ["__init__.py"]
  if fexists joined then some joined
  else if fexists firstLast then some firstLast
  else if fexists initFile then some initFile
  else none

/-- The order in which `_resolve_absolute_import` actually probes the
file system (the final `str(package_path) + ".py"` candidate repeats
the joined path, so it can never fire first). -/
def absoluteImportCandidates (moduleName : String) : List (List String) :=
  let parts := pySplit moduleName '.'
  [[moduleName ++ ".py"]] ++
    (if parts.length > 1 then
      [[parts.headD "", parts.getLastD "" ++ ".py"],
       parts.dropLast ++ [parts.getLastD "" ++ ".py"]]
     else []) ++
    [parts ++ ["__init__.py"],
     parts.dropLast ++ [parts.getLastD "" ++ ".py"]]

/-- A file system where both `a/c.py` (the first/last form) and
`a/b/c.py` (the joined form) exist. -/
def fsFirstLastAndJoined : List String → Bool := fun p =>
  decide (p = ["a", "c.py"]) || decide (p = ["a", "b", "c.py"])

/-- **C6, counterexample.** The claim's candidate order (joined path
first, then first/last) is not the code's: for module `a.b.c` with both
`a/c.py` and `a/b/c.py` present, `_resolve_absolute_import` returns
`a/c.py` (the `<first>/<last>` candidate is probed *before* the fully
joined path), while the spec's order would return `a/b/c.py`. -/
theorem resolve_absolute_differs_from_spec_order :
    resolveAbsoluteImport fsFirstLastAndJoined "a.b.c" =
      some ["a", "c.py"] ∧
    specResolveAbsoluteImport fsFirstLastAndJoined "a.b.c" =
      some ["a", "b", "c.py"] ∧
    resolveAbsoluteImport fsFirstLastAndJoined "a.b.c" ≠
      specResolveAbsoluteImport fsFirstLastAndJoined "a.b.c" := by
  refine ⟨by decide, by decide, by decide⟩

/-- **C6, amended.** Absolute import resolution treats the module name
as follows: it tries, in order, `<dotted-module-name>.py` as a single
path component under the source root, then (for dotted names)
`<first-segment>/<last-segment>.py`, then the fully joined path, then
the package directory's `__init__.py`, then the joined path once more;
the first existing candidate wins, and if none exists the import is
silently unresolved (`none`, no error). -/
theorem resolve_absolute_candidate_order (fexists : List String → Bool)
    (moduleName : String) :
    resolveAbsoluteImport fexists moduleName =
      (absoluteImportCandidates moduleName).findSome?
        (fun p => if fexists p then some p else none) ∧
    ((∀ c ∈ absoluteImportCandidates moduleName, fexists c = false) →
      resolveAbsoluteImport fexists moduleName = none) := by
  have hmain : resolveAbsoluteImport fexists moduleName =
      (absoluteImportCandidates moduleName).findSome?
        (fun p => if fexists p then some p else none) := by
    unfold resolveAbsoluteImport absoluteImportCandidates
    by_cases h : (pySplit moduleName '.').length > 1
    · cases h1 : fexists [moduleName ++ ".py"] <;>
        cases h2 : fexists [(pySplit moduleName '.').head?.getD "",
          (pySplit moduleName '.').getLast?.getD "" ++ ".py"] <;>
        cases h3 : fexists ((pySplit moduleName '.').dropLast ++
          [(pySplit moduleName '.').getLast?.getD "" ++ ".py"]) <;>
        cases h4 : fexists ((pySplit moduleName '.') ++ ["__init__.py"]) <;>
        simp [h, h1, h2, h3, h4, List.findSome?_cons]
    · cases h1 : fexists [moduleName ++ ".py"] <;>
        cases h3 : fexists ((pySplit moduleName '.').dropLast ++
          [(pySplit moduleName '.').getLast?.getD "" ++ ".py"]) <;>
        cases h4 : fexists ((pySplit moduleName '.') ++ ["__init__.py"]) <;>
        simp [h, h1, h3, h4, List.findSome?_cons]
  refine ⟨hmain, fun hnone => ?_⟩
  rw [hmain]
  rw [List.findSome?_eq_none_iff]
  intro c hc
  rw [hnone c hc]
  rfl

/-- Witness for C6 (amended): with no file present, resolution is
silently unresolved. -/
theorem resolve_absolute_candidate_order_witness :
    resolveAbsoluteImport (fun _ => false) "a.b.c" = none :=
  (resolve_absolute_candidate_order (fun _ => false) "a.b.c").2
    (fun _ _ => rfl)

/-! ## Schema import resolver (`appsync_builder.py`)

The GraphQL file tree is an association list from paths (relative to
the GraphQL source directory, which is also where all imports are
resolved, lines 87-92) to file contents.  A file's content is its list
of lines: the source reads the text and immediately splits on `'\n'`
(line 79), and joins with `'\n'` on return (line 108), so the
line-list representation is exact. -/

/-- `stripped.startswith('import "')` (line 84). -/
def isImportLine (line : String) : Bool :=
  strStartsWith (pyStrip line) "import \""

/-- `import_path = stripped[8:-1]` (line 85). -/
def importTarget (line : String) : String :=
  ((pyStrip line).drop 8).dropRight 1

/-- Lines 88-92: a `./`-prefixed import path is resolved from the
GraphQL directory root with the `./` removed; any other path is taken
relative to the GraphQL directory as-is. -/
def resolveSchemaImportPath (p : String) : String :=
  if strStartsWith p "./" then p.drop 2 else p

/-- The mutable state of one schema compilation: the `processed` set of
already-inlined resolved paths (line 40, threaded by reference).  The
`inlined` field is ghost instrumentation (not in the source): it
records every file whose content was actually read and inlined, and is
used only to state that no file's content is inlined twice. -/
structure SchemaState where
  processed : List String
  inlined : List String
deriving DecidableEq

/-- `AppSyncBuilder._process_schema` (lines 58-108).  Returns the
updated state and `some outputLines`, or `none` when an exception
(`FileNotFoundError` for a missing file, line 70, or a propagated inner
failure, lines 102-104) escapes to the caller.  The per-line loop is a
fold with an error-absorbing accumulator: once a recursive import has
raised, the remaining lines are not processed (the Python `raise`
aborts the loop), and the state at the point of the raise is returned.
One unit of fuel is consumed per file visit; `schemaFuel` is proven
sufficient below. -/
def processSchema (fs : List (String × List String)) :
    Nat → String → SchemaState → SchemaState × Option (List String)
  | 0, _, st => (st, none)
  | Nat.succ fuel, path, st =>
    if path ∈ st.processed then (st, some [""])
    else
      let st1 : SchemaState := ⟨path :: st.processed, st.inlined⟩
      match fs.lookup path with
      | none => (st1, none)
      | some lines =>
        lines.foldl (fun acc line =>
          match acc with
          | (t, none) => (t, none)
          | (t, some out) =>
            if isImportLine line then
              match processSchema fs fuel
                  (resolveSchemaImportPath (importTarget line)) t with
              | (t', none) => (t', none)
              | (t', some imported) =>
                if pyStrip (String.intercalate "\n" imported) = "" then
                  (t', some out)
                else
                  (t', some (out ++
                    ["# Imported from " ++ importTarget line] ++
                    imported ++ [""]))
            else (t, some (out ++ [line])))
          ((⟨st1.processed, path :: st1.inlined⟩ : SchemaState), some [])

/-- One iteration of the line loop of `_process_schema` (lines 81-106);
definitionally equal to the fold step inlined in `processSchema`. -/
def processSchemaLine (fs : List (String × List String)) (fuel : Nat)
    (acc : SchemaState × Option (List String)) (line : String) :
    SchemaState × Option (List String) :=
  match acc with
  | (t, none) => (t, none)
  | (t, some out) =>
    if isImportLine line then
      match processSchema fs fuel
          (resolveSchemaImportPath (importTarget line)) t with
      | (t', none) => (t', none)
      | (t', some imported) =>
        if pyStrip (String.intercalate "\n" imported) = "" then
          (t', some out)
        else
          (t', some (out ++
            ["# Imported from " ++ importTarget line] ++
            imported ++ [""]))
    else (t, some (out ++ [line]))

/-- The whole line loop of `_process_schema`. -/
def processSchemaLines (fs : List (String × List String)) (fuel : Nat)
    (lines : List String) (acc : SchemaState × Option (List String)) :
    SchemaState × Option (List String) :=
  lines.foldl (processSchemaLine fs fuel) acc

theorem processSchema_zero (fs : List (String × List String))
    (path : String) (st : SchemaState) :
    processSchema fs 0 path st = (st, none) := rfl

theorem processSchema_succ (fs : List (String × List String))
    (fuel : Nat) (path : String) (st : SchemaState) :
    processSchema fs (fuel + 1) path st =
      (if path ∈ st.processed then (st, some [""])
      else
        match fs.lookup path with
        | none => (⟨path :: st.processed, st.inlined⟩, none)
        | some lines =>
          processSchemaLines fs fuel lines
            (⟨path :: st.processed, path :: st.inlined⟩, some [])) := rfl

theorem processSchemaLines_nil (fs : List (String × List String))
    (fuel : Nat) (acc : SchemaState × Option (List String)) :
    processSchemaLines fs fuel [] acc = acc := rfl

theorem processSchemaLines_cons (fs : List (String × List String))
    (fuel : Nat) (line : String) (lines : List String)
    (acc : SchemaState × Option (List String)) :
    processSchemaLines fs fuel (line :: lines) acc =
      processSchemaLines fs fuel lines (processSchemaLine fs fuel acc line) :=
  rfl

/-- The schema import relation: `p` imports `q` iff file `p` exists and
one of its lines is an import directive whose resolved target is `q`. -/
def schemaEdge (fs : List (String × List String)) (p q : String) : Bool :=
  match fs.lookup p with
  | none => false
  | some lines =>
    lines.any fun line =>
      isImportLine line &&
        decide (resolveSchemaImportPath (importTarget line) = q)

/-- The schema import relation as a `Prop`-valued relation. -/
def SchemaEdgeRel (fs : List (String × List String)) (p q : String) :
    Prop :=
  schemaEdge fs p q = true

instance (fs : List (String × List String)) (p q : String) :
    Decidable (SchemaEdgeRel fs p q) :=
  inferInstanceAs (Decidable (schemaEdge fs p q = true))

/-- Sufficient fuel for one compilation over the file tree `fs`: one
visit per distinct file plus one for the entry. -/
def schemaFuel (fs : List (String × List String)) : Nat := fs.length + 1

/-- `\w` of the duplicate-type regex `type\s+(\w+)` (line 126); ASCII
identifier characters. -/
def isWordChar (c : Char) : Bool := c.isAlphanum || c = '_'

/-- `re.findall(r'type\s+(\w+)', schema_content)` (line 126): scan left
to right; at each position where the literal `type` is followed by at
least one whitespace character and then at least one word character,
capture the maximal word-character run and continue after the match;
otherwise advance one character. -/
def findTypeNames : List Char → List String
  | 't' :: 'y' :: 'p' :: 'e' :: rest =>
    let ws := rest.takeWhile isPySpace
    if ws.isEmpty then findTypeNames ('y' :: 'p' :: 'e' :: rest)
    else
      let rest2 := rest.drop ws.length
      let w := rest2.takeWhile isWordChar
      if w.isEmpty then findTypeNames ('y' :: 'p' :: 'e' :: rest)
      else String.mk w :: findTypeNames (rest2.drop w.length)
  | _ :: rest => findTypeNames rest
  | [] => []
termination_by cs => cs.length
decreasing_by
  all_goals simp only [List.length_cons, List.length_drop]
  all_goals omega

/-- `AppSyncBuilder._validate_schema` (lines 110-143): reject an empty
or whitespace-only document; reject when any captured `type Name` name
occurs more than once; reject when the `{` and `}` counts differ.  The
`has_query` / `has_mutation` computation of lines 119-123 only logs a
warning and has no effect on the result, so it is omitted. -/
def validateSchema (schemaContent : String) : Bool :=
  if pyStrip schemaContent = "" then false
  else if !((findTypeNames schemaContent.toList).dedup.filter fun t =>
      1 < (findTypeNames schemaContent.toList).count t).isEmpty then false
  else if (schemaContent.toList.filter fun c => c = '\x7b').length ≠
      (schemaContent.toList.filter fun c => c = '\x7d').length then
    false
  else true

/-- `AppSyncBuilder.build` (lines 27-56): fail if the schema file does
not exist; compile it (any exception is caught at lines 54-56 and
turned into `False`); validate the combined output; on success write
the output file and return `True`. -/
def appSyncBuild (fs : List (String × List String))
    (schemaName : String) : Bool :=
  match fs.lookup (schemaName ++ ".graphql") with
  | none => false
  | some _ =>
    match processSchema fs (schemaFuel fs) (schemaName ++ ".graphql")
        ⟨[], []⟩ with
    | (_, none) => false
    | (_, some outLines) =>
      validateSchema (String.intercalate "\n" outLines)

/-! ### Claim theorem C8: schema validation -/

theorem dup_filter_isEmpty_iff (names : List String) :
    (names.dedup.filter fun t => 1 < names.count t).isEmpty = true ↔
      names.Nodup := by
  rw [List.isEmpty_iff, List.filter_eq_nil_iff]
  simp only [List.mem_dedup, decide_eq_true_eq, not_lt]
  rw [List.nodup_iff_count_le_one]
  constructor
  · intro h a
    by_cases ha : a ∈ names
    · exact h a ha
    · rw [List.count_eq_zero_of_not_mem ha]; omega
  · intro h t _
    exact h t

/-- **C8.** Schema validation of the combined output accepts a
document iff it is not whitespace-only, no name captured by the
`type Name` pattern occurs more than once, and the counts of `{` and
`}` agree.  In particular it rejects an empty or whitespace-only
document, a document with a duplicated captured type name, and a
document with mismatched braces; and since the right-hand side does
not mention the `Query`/`Mutation` root types, their absence never
causes a rejection (it only logs a warning, lines 119-123). -/
theorem schema_validation_characterization (s : String) :
    validateSchema s = true ↔
      (pyStrip s ≠ "" ∧ (findTypeNames s.toList).Nodup ∧
        (s.toList.filter fun c => c = '\x7b').length =
          (s.toList.filter fun c => c = '\x7d').length) := by
  unfold validateSchema
  by_cases h1 : pyStrip s = ""
  · simp [h1]
  · rw [if_neg h1]
    by_cases h2 : (findTypeNames s.toList).Nodup
    · rw [(dup_filter_isEmpty_iff _).mpr h2]
      simp only [Bool.not_true, Bool.false_eq_true, if_false]
      by_cases h3 : (s.toList.filter fun c => c = '\x7b').length =
          (s.toList.filter fun c => c = '\x7d').length
      · rw [if_neg (fun hc => hc h3)]
        exact iff_of_true rfl ⟨h1, h2, h3⟩
      · rw [if_pos h3]
        exact iff_of_false (fun hc => Bool.noConfusion hc)
          (fun hr => h3 hr.2.2)
    · have hde : ((findTypeNames s.toList).dedup.filter fun t =>
          1 < (findTypeNames s.toList).count t).isEmpty = false := by
        cases hx : ((findTypeNames s.toList).dedup.filter fun t =>
            1 < (findTypeNames s.toList).count t).isEmpty
        · rfl
        · exact absurd ((dup_filter_isEmpty_iff _).mp hx) h2
      rw [hde]
      simp only [Bool.not_false, if_true]
      exact iff_of_false (fun hc => Bool.noConfusion hc)
        (fun hr => h2 hr.2.1)

/-! ### Claim theorem C5: a missing import target is fatal -/

/-- A one-file tree whose schema imports a file that does not exist. -/
def fsMissingImport : List (String × List String) :=
  [("main.graphql",
    ["import \"missing.graphql\"", "type Query \x7b a: Int \x7d"])]

/-- **C5, counterexample.** An import directive whose target file does
not exist is *not* handled non-fatally: `_process_schema` raises
`FileNotFoundError` (line 70), the exception propagates (lines
102-104) to `build`'s handler, and the schema build unit fails. -/
theorem schema_build_fails_on_missing_import :
    appSyncBuild fsMissingImport "main" = false ∧
    (processSchema fsMissingImport (schemaFuel fsMissingImport)
      "main.graphql" ⟨[], []⟩).2 = none :=
  ⟨by decide, by decide⟩

/-- **C5, amended.** During schema compilation an import directive
whose target file does not exist is fatal to that schema unit: after
the guard, the missing path is recorded and `FileNotFoundError` is
raised (modelled as a `none` result); when compilation of a schema
raises, `build` catches the exception and returns failure. -/
theorem schema_missing_import_is_fatal :
    (∀ (fs : List (String × List String)) (fuel : Nat) (path : String)
      (st : SchemaState), path ∉ st.processed → fs.lookup path = none →
      processSchema fs (fuel + 1) path st =
        (⟨path :: st.processed, st.inlined⟩, none)) ∧
    (∀ (fs : List (String × List String)) (schemaName : String)
      (lines : List String),
      fs.lookup (schemaName ++ ".graphql") = some lines →
      (processSchema fs (schemaFuel fs) (schemaName ++ ".graphql")
        ⟨[], []⟩).2 = none →
      appSyncBuild fs schemaName = false) := by
  constructor
  · intro fs fuel path st hnp hlk
    rw [processSchema_succ, if_neg hnp, hlk]
  · intro fs schemaName lines hlk herr
    unfold appSyncBuild
    rw [hlk]
    rcases hx : processSchema fs (schemaFuel fs)
        (schemaName ++ ".graphql") ⟨[], []⟩ with ⟨st', r⟩
    rw [hx] at herr
    simp only at herr
    subst herr
    rfl

/-- Witness for C5 (amended): in the concrete tree, processing the
missing target records it and raises. -/
theorem schema_missing_import_is_fatal_witness :
    processSchema fsMissingImport 1 "missing.graphql"
        ⟨["main.graphql"], ["main.graphql"]⟩ =
      (⟨["missing.graphql", "main.graphql"], ["main.graphql"]⟩, none) :=
  schema_missing_import_is_fatal.1 fsMissingImport 0 "missing.graphql"
    ⟨["main.graphql"], ["main.graphql"]⟩ (by decide) (by decide)

/-! ### Claim theorem C9: a document with no imports is unchanged -/

/-- Modelled from the spec: "Post-processing: strip any residual import
directives and full-line comments."  No such post-processing exists in
`_process_schema`; this definition follows the spec's words and is used
only for comparison. -/
def specStripLines (lines : List String) : List String :=
  lines.filter fun l =>
    !(strStartsWith (pyStrip l) "#") && !(isImportLine l)

/-- A one-file tree whose schema contains a full-line comment and no
directives at all. -/
def fsComment : List (String × List String) :=
  [("c.graphql", ["# a comment", "type Query \x7b a: Int \x7d"])]

theorem processSchemaLines_no_imports (fs : List (String × List String))
    (fuel : Nat) :
    ∀ (lines : List String) (st : SchemaState) (out : List String),
      (∀ line ∈ lines, isImportLine line = false) →
      processSchemaLines fs fuel lines (st, some out) =
        (st, some (out ++ lines)) := by
  intro lines
  induction lines with
  | nil => intro st out _; rw [processSchemaLines_nil]; simp
  | cons l ls ih =>
    intro st out hno
    rw [processSchemaLines_cons]
    have hl : isImportLine l = false := hno l (List.mem_cons_self _ _)
    have hstep : processSchemaLine fs fuel (st, some out) l =
        (st, some (out ++ [l])) := by
      unfold processSchemaLine
      rw [hl]
      simp
    rw [hstep, ih st (out ++ [l])
      (fun x hx => hno x (List.mem_cons_of_mem _ hx))]
    simp

/-- **C9, counterexample.** Schema compilation applied to a document
with no import directives does *not* strip full-line comments: the
compiled output still contains the `#`-comment line verbatim, whereas
the claimed post-processing would have removed it. -/
theorem schema_compile_keeps_full_line_comments :
    (processSchema fsComment (schemaFuel fsComment) "c.graphql"
      ⟨[], []⟩).2 =
      some ["# a comment", "type Query \x7b a: Int \x7d"] ∧
    specStripLines ["# a comment", "type Query \x7b a: Int \x7d"] =
      ["type Query \x7b a: Int \x7d"] ∧
    (processSchema fsComment (schemaFuel fsComment) "c.graphql"
      ⟨[], []⟩).2 ≠
      some (specStripLines
        ["# a comment", "type Query \x7b a: Int \x7d"]) :=
  ⟨by decide, by decide, by decide⟩

/-- **C9, amended.** Schema compilation applied to a document
containing no import directives returns the document's text exactly
unchanged: every line (including full-line comments) is copied to the
output verbatim, and no post-processing strips anything. -/
theorem schema_compile_no_imports_identity
    (fs : List (String × List String)) (fuel : Nat) (path : String)
    (lines : List String) (hlk : fs.lookup path = some lines)
    (hno : ∀ line ∈ lines, isImportLine line = false) :
    processSchema fs (fuel + 1) path ⟨[], []⟩ =
      (⟨[path], [path]⟩, some lines) := by
  rw [processSchema_succ]
  rw [if_neg (List.not_mem_nil path), hlk]
  dsimp only
  rw [processSchemaLines_no_imports fs fuel lines ⟨[path], [path]⟩ [] hno]
  simp

/-- Witness for C9 (amended): the comment document compiles to itself. -/
theorem schema_compile_no_imports_identity_witness :
    processSchema fsComment 1 "c.graphql" ⟨[], []⟩ =
      (⟨["c.graphql"], ["c.graphql"]⟩,
        some ["# a comment", "type Query \x7b a: Int \x7d"]) :=
  schema_compile_no_imports_identity fsComment 0 "c.graphql"
    ["# a comment", "type Query \x7b a: Int \x7d"] (by decide) (by decide)

/-! ### Claim theorem C7: cycles terminate, nothing is inlined twice -/

/-- Growth order on schema compilation states. -/
def SchemaStateLE (s t : SchemaState) : Prop :=
  (∀ x ∈ s.processed, x ∈ t.processed) ∧
  (∀ x ∈ s.inlined, x ∈ t.inlined)

theorem schemaStateLE_refl {s : SchemaState} : SchemaStateLE s s :=
  ⟨fun _ hx => hx, fun _ hx => hx⟩

theorem schemaStateLE_trans {s t u : SchemaState} (h1 : SchemaStateLE s t)
    (h2 : SchemaStateLE t u) : SchemaStateLE s u :=
  ⟨fun x hx => h2.1 x (h1.1 x hx), fun x hx => h2.2 x (h1.2 x hx)⟩

theorem processSchemaLine_mono (fs : List (String × List String))
    (fuel : Nat)
    (hrec : ∀ path st,
      SchemaStateLE st (processSchema fs fuel path st).1)
    (acc : SchemaState × Option (List String)) (line : String) :
    SchemaStateLE acc.1 (processSchemaLine fs fuel acc line).1 := by
  unfold processSchemaLine
  rcases acc with ⟨t, r⟩
  cases r with
  | none => exact schemaStateLE_refl
  | some out =>
    dsimp only
    split
    · rcases hx : processSchema fs fuel
          (resolveSchemaImportPath (importTarget line)) t with ⟨t', r'⟩
      have := hrec (resolveSchemaImportPath (importTarget line)) t
      rw [hx] at this
      cases r' with
      | none => exact this
      | some imported =>
        dsimp only
        split
        · exact this
        · exact this
    · exact schemaStateLE_refl

theorem processSchemaLines_mono (fs : List (String × List String))
    (fuel : Nat)
    (hrec : ∀ path st,
      SchemaStateLE st (processSchema fs fuel path st).1) :
    ∀ (lines : List String) (acc : SchemaState × Option (List String)),
      SchemaStateLE acc.1 (processSchemaLines fs fuel lines acc).1 := by
  intro lines
  induction lines with
  | nil => intro acc; exact schemaStateLE_refl
  | cons line ls ih =>
    intro acc
    rw [processSchemaLines_cons]
    exact schemaStateLE_trans (processSchemaLine_mono fs fuel hrec acc line)
      (ih _)

theorem processSchema_mono (fs : List (String × List String)) :
    ∀ (fuel : Nat) (path : String) (st : SchemaState),
      SchemaStateLE st (processSchema fs fuel path st).1 := by
  intro fuel
  induction fuel with
  | zero => intro path st; exact schemaStateLE_refl
  | succ fuel ih =>
    intro path st
    rw [processSchema_succ]
    split
    · exact schemaStateLE_refl
    · split
      · exact ⟨fun x hx => List.mem_cons_of_mem _ hx, fun _ hx => hx⟩
      · refine schemaStateLE_trans
          (t := ⟨path :: st.processed, path :: st.inlined⟩)
          ⟨fun x hx => List.mem_cons_of_mem _ hx,
           fun x hx => List.mem_cons_of_mem _ hx⟩ ?_
        exact processSchemaLines_mono fs fuel ih _
          ((⟨path :: st.processed, path :: st.inlined⟩ : SchemaState),
            some [])

/-- Ghost invariant: no path is processed twice, no file is inlined
twice, and only processed files are inlined. -/
def SchemaInv (st : SchemaState) : Prop :=
  st.processed.Nodup ∧ st.inlined.Nodup ∧
    ∀ x ∈ st.inlined, x ∈ st.processed

theorem processSchemaLine_inv (fs : List (String × List String))
    (fuel : Nat)
    (hrec : ∀ path st, SchemaInv st →
      SchemaInv (processSchema fs fuel path st).1)
    (acc : SchemaState × Option (List String)) (line : String)
    (hs : SchemaInv acc.1) :
    SchemaInv (processSchemaLine fs fuel acc line).1 := by
  unfold processSchemaLine
  rcases acc with ⟨t, r⟩
  cases r with
  | none => exact hs
  | some out =>
    dsimp only at hs ⊢
    split
    · rcases hx : processSchema fs fuel
          (resolveSchemaImportPath (importTarget line)) t with ⟨t', r'⟩
      have := hrec (resolveSchemaImportPath (importTarget line)) t hs
      rw [hx] at this
      cases r' with
      | none => exact this
      | some imported =>
        dsimp only
        split
        · exact this
        · exact this
    · exact hs

theorem processSchemaLines_inv (fs : List (String × List String))
    (fuel : Nat)
    (hrec : ∀ path st, SchemaInv st →
      SchemaInv (processSchema fs fuel path st).1) :
    ∀ (lines : List String) (acc : SchemaState × Option (List String)),
      SchemaInv acc.1 →
      SchemaInv (processSchemaLines fs fuel lines acc).1 := by
  intro lines
  induction lines with
  | nil => intro acc hs; exact hs
  | cons line ls ih =>
    intro acc hs
    rw [processSchemaLines_cons]
    exact ih _ (processSchemaLine_inv fs fuel hrec acc line hs)

theorem processSchema_inv (fs : List (String × List String)) :
    ∀ (fuel : Nat) (path : String) (st : SchemaState), SchemaInv st →
      SchemaInv (processSchema fs fuel path st).1 := by
  intro fuel
  induction fuel with
  | zero => intro path st hs; exact hs
  | succ fuel ih =>
    intro path st hs
    rw [processSchema_succ]
    split
    · exact hs
    · rename_i hnp
      have hinv2 : SchemaInv ⟨path :: st.processed, path :: st.inlined⟩ := by
        refine ⟨List.nodup_cons.mpr ⟨hnp, hs.1⟩,
          List.nodup_cons.mpr ⟨fun hc => hnp (hs.2.2 path hc), hs.2.1⟩, ?_⟩
        intro x hx
        rcases List.mem_cons.mp hx with h | h
        · subst h; exact List.mem_cons_self _ _
        · exact List.mem_cons_of_mem _ (hs.2.2 x h)
      split
      · exact ⟨List.nodup_cons.mpr ⟨hnp, hs.1⟩, hs.2.1, fun x hx =>
          List.mem_cons_of_mem _ (hs.2.2 x hx)⟩
      · exact processSchemaLines_inv fs fuel ih _ _ hinv2

/-- The number of schema files not yet processed: the quantity that
bounds the remaining recursion depth. -/
def schemaKeyCount (fs : List (String × List String))
    (processed : List String) : Nat :=
  ((fs.map Prod.fst).toFinset.filter fun k => k ∉ processed).card

theorem schemaKeyCount_mono (fs : List (String × List String))
    {p1 p2 : List String} (h : ∀ x ∈ p1, x ∈ p2) :
    schemaKeyCount fs p2 ≤ schemaKeyCount fs p1 :=
  Finset.card_le_card fun k hk => by
    rw [Finset.mem_filter] at hk ⊢
    exact ⟨hk.1, fun hc => hk.2 (h k hc)⟩

theorem lookup_some_mem_keys {fs : List (String × List String)}
    {path : String} {lines : List String}
    (h : fs.lookup path = some lines) : path ∈ fs.map Prod.fst := by
  induction fs with
  | nil => simp [List.lookup] at h
  | cons kv rest ih =>
    rcases kv with ⟨k, v⟩
    rw [List.lookup] at h
    cases hbe : path == k with
    | true =>
      have : path = k := eq_of_beq hbe
      subst this
      simp
    | false =>
      rw [hbe] at h
      simp only [List.map_cons, List.mem_cons]
      exact Or.inr (ih h)

theorem schemaKeyCount_cons (fs : List (String × List String))
    {path : String} {processed : List String}
    (hk : path ∈ fs.map Prod.fst) (hnp : path ∉ processed) :
    schemaKeyCount fs (path :: processed) + 1 =
      schemaKeyCount fs processed := by
  unfold schemaKeyCount
  have h1 : ((fs.map Prod.fst).toFinset.filter
      fun k => k ∉ path :: processed) =
      ((fs.map Prod.fst).toFinset.filter fun k => k ∉ processed).erase
        path := by
    ext x
    simp only [Finset.mem_filter, Finset.mem_erase, List.mem_cons,
      not_or]
    tauto
  have h2 : path ∈ (fs.map Prod.fst).toFinset.filter
      fun k => k ∉ processed := by
    rw [Finset.mem_filter, List.mem_toFinset]
    exact ⟨hk, hnp⟩
  rw [h1, Finset.card_erase_of_mem h2]
  have := Finset.card_pos.mpr ⟨path, h2⟩
  omega

theorem processSchemaLines_fuel_stable (fs : List (String × List String))
    (g : Nat)
    (IH : ∀ (path : String) (st : SchemaState),
      schemaKeyCount fs st.processed + 1 ≤ g →
      processSchema fs (g + 1) path st = processSchema fs g path st) :
    ∀ (lines : List String) (st : SchemaState)
      (r : Option (List String)),
      schemaKeyCount fs st.processed + 1 ≤ g →
      processSchemaLines fs (g + 1) lines (st, r) =
        processSchemaLines fs g lines (st, r) := by
  intro lines
  induction lines with
  | nil => intro st r _; rw [processSchemaLines_nil, processSchemaLines_nil]
  | cons line ls ih =>
    intro st r hb
    rw [processSchemaLines_cons, processSchemaLines_cons]
    cases r with
    | none => exact ih st none hb
    | some out =>
      by_cases himp : isImportLine line = true
      · have hstep : processSchemaLine fs (g + 1) (st, some out) line =
            processSchemaLine fs g (st, some out) line := by
          unfold processSchemaLine
          dsimp only
          rw [IH (resolveSchemaImportPath (importTarget line)) st hb]
        rw [hstep]
        rcases hres : processSchemaLine fs g (st, some out) line
          with ⟨st2, r2⟩
        have hle : SchemaStateLE st st2 := by
          have := processSchemaLine_mono fs g
            (fun p s => processSchema_mono fs g p s) (st, some out) line
          rw [hres] at this
          exact this
        have hb2 : schemaKeyCount fs st2.processed + 1 ≤ g :=
          le_trans (by have := schemaKeyCount_mono fs hle.1; omega) hb
        exact ih st2 r2 hb2
      · have himp' : isImportLine line = false := by
          cases hx : isImportLine line
          · rfl
          · exact absurd hx himp
        have hstep : processSchemaLine fs (g + 1) (st, some out) line =
            (st, some (out ++ [line])) := by
          unfold processSchemaLine
          dsimp only
          rw [himp']
          simp
        have hstep' : processSchemaLine fs g (st, some out) line =
            (st, some (out ++ [line])) := by
          unfold processSchemaLine
          dsimp only
          rw [himp']
          simp
        rw [hstep, hstep']
        exact ih st _ hb

theorem processSchema_fuel_succ_stable (fs : List (String × List String)) :
    ∀ (fuel : Nat) (path : String) (st : SchemaState),
      schemaKeyCount fs st.processed + 1 ≤ fuel →
      processSchema fs (fuel + 1) path st =
        processSchema fs fuel path st := by
  intro fuel
  induction fuel using Nat.strong_induction_on with
  | _ fuel IH =>
    intro path st hb
    cases fuel with
    | zero => omega
    | succ g =>
      rw [processSchema_succ, processSchema_succ]
      by_cases hmem : path ∈ st.processed
      · rw [if_pos hmem, if_pos hmem]
      · rw [if_neg hmem, if_neg hmem]
        cases hlk : fs.lookup path with
        | none => rfl
        | some lines =>
          have hb2 : schemaKeyCount fs (path :: st.processed) + 1 ≤ g := by
            have := schemaKeyCount_cons fs (lookup_some_mem_keys hlk) hmem
            omega
          exact processSchemaLines_fuel_stable fs g
            (IH g (Nat.lt_succ_self g)) lines
            ⟨path :: st.processed, path :: st.inlined⟩ (some []) hb2

theorem processSchema_fuel_stable_of_le (fs : List (String × List String)) :
    ∀ (fuel : Nat), schemaFuel fs ≤ fuel → ∀ path : String,
      processSchema fs fuel path ⟨[], []⟩ =
        processSchema fs (schemaFuel fs) path ⟨[], []⟩ := by
  intro fuel hf
  induction fuel, hf using Nat.le_induction with
  | base => intro path; rfl
  | succ fuel hf ih =>
    intro path
    rw [← ih path]
    apply processSchema_fuel_succ_stable
    have h1 : schemaKeyCount fs ([] : List String) ≤ fs.length := by
      unfold schemaKeyCount
      calc ((fs.map Prod.fst).toFinset.filter fun k =>
              k ∉ ([] : List String)).card
          ≤ (fs.map Prod.fst).toFinset.card := Finset.card_filter_le _ _
        _ ≤ (fs.map Prod.fst).length := List.toFinset_card_le _
        _ = fs.length := List.length_map _ _
    unfold schemaFuel at hf
    show schemaKeyCount fs ([] : List String) + 1 ≤ fuel
    omega

/-- The two-file cyclic schema tree: `a.graphql` imports `b.graphql`
which imports `a.graphql` back. -/
def fsCyclic : List (String × List String) :=
  [("a.graphql",
    ["import \"b.graphql\"", "type Query \x7b x: Int \x7d"]),
   ("b.graphql", ["import \"a.graphql\""])]

/-- **C7.** For every schema import graph containing a cycle, schema
compilation terminates without infinite recursion — modelled as: any
fuel of at least `schemaFuel fs` (one unit per file) produces the same
result, so the recursion depth is bounded independently of the cycle —
, a directive targeting an already-inlined file is replaced with empty
content instead of being recursed into, and each distinct file's
content is inlined at most once (the ghost trace of inlined files has
no duplicates). -/
theorem schema_cyclic_terminates_inlines_once
    (fs : List (String × List String))
    (hcyc : ∃ p, Relation.TransGen (SchemaEdgeRel fs) p p) :
    (∀ fuel, schemaFuel fs ≤ fuel → ∀ path : String,
      processSchema fs fuel path ⟨[], []⟩ =
        processSchema fs (schemaFuel fs) path ⟨[], []⟩) ∧
    (∀ (fuel : Nat) (path : String) (st : SchemaState),
      path ∈ st.processed →
      processSchema fs (fuel + 1) path st = (st, some [""])) ∧
    (∀ path : String,
      (processSchema fs (schemaFuel fs) path
        ⟨[], []⟩).1.inlined.Nodup) := by
  refine ⟨processSchema_fuel_stable_of_le fs, ?_, ?_⟩
  · intro fuel path st hmem
    rw [processSchema_succ, if_pos hmem]
  · intro path
    exact (processSchema_inv fs (schemaFuel fs) path ⟨[], []⟩
      ⟨List.nodup_nil, List.nodup_nil,
        fun x hx => absurd hx (List.not_mem_nil x)⟩).2.1

/-- Witness for C7: the two-cycle `a.graphql ↔ b.graphql` satisfies the
cyclicity hypothesis; the theorem applies, and in particular a
directive targeting the already-inlined `a.graphql` yields empty
content, and nothing is inlined twice in the concrete compilation. -/
theorem schema_cyclic_terminates_inlines_once_witness :
    Relation.TransGen (SchemaEdgeRel fsCyclic) "a.graphql" "a.graphql" ∧
    processSchema fsCyclic 1 "a.graphql" ⟨["a.graphql"], []⟩ =
      (⟨["a.graphql"], []⟩, some [""]) ∧
    (processSchema fsCyclic (schemaFuel fsCyclic) "a.graphql"
      ⟨[], []⟩).1.inlined.Nodup :=
  have htg : Relation.TransGen (SchemaEdgeRel fsCyclic) "a.graphql"
      "a.graphql" :=
    Relation.TransGen.head (b := "b.graphql") (by decide)
      (Relation.TransGen.single (by decide))
  ⟨htg,
    (schema_cyclic_terminates_inlines_once fsCyclic
      ⟨"a.graphql", htg⟩).2.1 0 "a.graphql" ⟨["a.graphql"], []⟩
      (by decide),
    (schema_cyclic_terminates_inlines_once fsCyclic
      ⟨"a.graphql", htg⟩).2.2 "a.graphql"⟩

end Builder
